import Mathlib

/-!
# Verification of the adaptive verse-chunking engine and its UI consumers

This file embeds, in Lean 4, the parts of the `prism-religious` repository
that the verified claims speak about:

* the adaptive verse chunker (Chunk Assembler), its genre classifier and the
  Prism document record it hands to the uploader.  The Python sources
  (`verse_chunker.py`, `genre classifier`, `prism_client.py`, `config.py`)
  are not part of the repository snapshot — only their documentation
  (`src/importer/README.md`, `src/unnamed/part_000`, `src/VERIFICATION_REPORT.md`)
  and test reports are.  Those definitions are therefore modelled from the
  specification (and, for the document record, from the repository's own
  declared `Prism Document Format`); each such definition says so in its
  doc comment.
* the UI's Bible search client (`src/ui/src/lib/api/geography.ts`):
  `parseVerseRef`, the result mapping and aggregation of `searchBible`, and
  the search-filter store operations `toggleTranslation` / `setTranslations`.
  These are translated directly from the TypeScript source.
-/

/-! ## Token counter -/

/-- Modelled from the spec: the Token Counter (§2.1) "measures the token
length of an arbitrary text string using a fixed, deterministic tokenization
scheme"; the source's `tiktoken` (cl100k_base) tokenizer is not under `src/`.
We use the simplest fixed deterministic scheme: the number of maximal
space-separated words.  Auxiliary: `inWord` records whether the previous
character was part of a word. -/
def countTokensAux : List Char → Bool → Nat
  | [], _ => 0
  | c :: t, inWord =>
    if c = ' ' then countTokensAux t false
    else (if inWord then 0 else 1) + countTokensAux t true

/-- Modelled from the spec: deterministic token count of a text string
(number of space-separated words). -/
def count_tokens (s : String) : Nat := countTokensAux s.data false

/-! ## Data model (spec §3) -/

/-- Testament of a book, `OLD` or `NEW` (spec §3, Verse attributes). -/
inductive Testament where
  | old
  | new
deriving DecidableEq, Inhabited

/-- The atomic input unit (spec §3): identity `(book, chapter, verse)`,
with its text and derived testament. -/
structure Verse where
  book : String
  chapter : Nat
  verse : Nat
  text : String
  testament : Testament
deriving DecidableEq, Inhabited

/-- Static token-budget configuration per genre category (spec §3):
`min_tokens ≤ target_tokens ≤ max_tokens`. -/
structure GenreProfile where
  target_tokens : Nat
  min_tokens : Nat
  max_tokens : Nat
deriving DecidableEq, Inhabited

/-- Total token count of a list of verses. -/
def versesTokens (vs : List Verse) : Nat :=
  (vs.map fun v => count_tokens v.text).sum

/-- Decimal digits, least-significant digit pushed onto `acc` first; the
fuel argument (any bound above the value) keeps the recursion structural. -/
def natToDigitsAux : Nat → Nat → List Char → List Char
  | 0, _, acc => acc
  | fuel + 1, n, acc =>
    if n < 10 then Char.ofNat (48 + n) :: acc
    else natToDigitsAux fuel (n / 10) (Char.ofNat (48 + n % 10) :: acc)

/-- Decimal digits of a natural number, most significant first. -/
def natToDigits (n : Nat) : List Char := natToDigitsAux (n + 1) n []

/-- Decimal rendering of a natural number. -/
def natRepr (n : Nat) : String := String.mk (natToDigits n)

/-- Rendered chunk text: each verse's text prefixed by its verse number
(spec §3, Chunk.text; README "content" field). -/
def renderVerses (vs : List Verse) : String :=
  String.intercalate " " (vs.map fun v => natRepr v.verse ++ " " ++ v.text)

/-- The output unit (spec §3).  `verse_start`/`verse_end` span the *primary*
verses only; `overlap` holds the non-primary verses prepended by the overlap
rule; `token_count` includes overlap verses; `oversized` is the flag of the
oversized-single-verse exception (spec §4.2 step 2b). -/
structure Chunk where
  book : String
  chapter : Nat
  verse_start : Nat
  verse_end : Nat
  text : String
  token_count : Nat
  testament : Testament
  overlap : List Verse
  primary : List Verse
  oversized : Bool
deriving DecidableEq, Inhabited

/-! ## Chunk Assembler (spec §4.2) — modelled from the spec

`verse_chunker.py` is not under `src/`; the assembler below is modelled from
the algorithm of spec §4.2.  Interpretation choices forced by the spec text
(documented here because the spec's steps are not directly executable):

* `running_tokens` is the token count of the whole accumulator, overlap seed
  included (step 4: "Overlap verses are included in `token_count`").
* The accumulator-emptiness tests of steps 2b read the accumulator's
  *primary* content: a freshly seeded accumulator counts as empty.  (Under
  the alternative reading — seed verses count — step 2b could close a chunk
  containing no primary verse and the "re-process" loop need not terminate.)
* The oversized-verse path of step 2b emits a chunk directly without closing
  the accumulator, so the overlap rule of step 4 ("when starting a new
  accumulator after closing a chunk") does not reseed there and the pending
  accumulator state is kept.
-/

/-- Accumulator state of the assembler: pending overlap seed (non-primary)
and accumulated primary verses. -/
structure AsmState where
  seed : List Verse
  prim : List Verse
deriving DecidableEq, Inhabited

/-- `running_tokens` of the accumulator (overlap seed included). -/
def runTokens (st : AsmState) : Nat := versesTokens (st.seed ++ st.prim)

/-- Close the accumulator as a chunk (spec §4.2 steps 2b/2d/3):
`verse_start`/`verse_end` are the first/last *primary* verse numbers. -/
def closeChunk (st : AsmState) : Chunk :=
  { book := (st.prim.head?.map fun v => v.book).getD ""
    chapter := (st.prim.head?.map fun v => v.chapter).getD 0
    verse_start := (st.prim.head?.map fun v => v.verse).getD 0
    verse_end := (st.prim.getLast?.map fun v => v.verse).getD 0
    text := renderVerses (st.seed ++ st.prim)
    token_count := runTokens st
    testament := (st.prim.head?.map fun v => v.testament).getD .old
    overlap := st.seed
    primary := st.prim
    oversized := false }

/-- The oversized-single-verse chunk of spec §4.2 step 2b: contains only the
offending verse and is flagged for downstream quality review. -/
def mkOversized (v : Verse) : Chunk :=
  { book := v.book
    chapter := v.chapter
    verse_start := v.verse
    verse_end := v.verse
    text := renderVerses [v]
    token_count := count_tokens v.text
    testament := v.testament
    overlap := []
    primary := [v]
    oversized := true }

/-- Overlap token target: 15% of `target_tokens` (spec §4.2 step 4,
§9 `overlap_ratio = 0.15`), rounded down. -/
def overlapTarget (P : GenreProfile) : Nat := 15 * P.target_tokens / 100

/-- Modelled from the spec (§4.2 step 4): the minimal trailing slice of the
just-closed chunk's verses whose cumulative token count meets or exceeds the
overlap target (the whole list if even that falls short). -/
def overlapTail (t : Nat) : List Verse → List Verse
  | [] => []
  | v :: rest =>
    let r := overlapTail t rest
    if t ≤ versesTokens r then r else v :: rest

/-- State for the accumulator started after closing chunk `c`
(spec §4.2 step 4): seeded with the overlap tail when `ov` is set. -/
def afterClose (P : GenreProfile) (ov : Bool) (c : Chunk) : AsmState :=
  { seed := if ov then overlapTail (overlapTarget P) (c.overlap ++ c.primary) else []
    prim := [] }

/-- Modelled from the spec: the greedy single-pass loop of §4.2 steps 1–4.
The "re-process the current verse" of step 2b is inlined: after the close the
new accumulator has no primary verse, so the re-processed verse either hits
the oversized case or is appended (and may at once reach the target). -/
def asmGo (P : GenreProfile) (ov : Bool) : List Verse → AsmState → List Chunk
  | [], st => if st.prim = [] then [] else [closeChunk st]
  | v :: rest, st =>
    let vt := count_tokens v.text
    if st.prim = [] ∧ P.max_tokens < vt then
      mkOversized v :: asmGo P ov rest st
    else if st.prim ≠ [] ∧ P.max_tokens < runTokens st + vt then
      let c := closeChunk st
      if P.max_tokens < vt then
        c :: mkOversized v :: asmGo P ov rest (afterClose P ov c)
      else
        let st2 : AsmState := { seed := (afterClose P ov c).seed, prim := [v] }
        if P.target_tokens ≤ runTokens st2 then
          c :: closeChunk st2 :: asmGo P ov rest (afterClose P ov (closeChunk st2))
        else
          c :: asmGo P ov rest st2
    else
      let st2 : AsmState := { st with prim := st.prim ++ [v] }
      if P.target_tokens ≤ runTokens st2 then
        closeChunk st2 :: asmGo P ov rest (afterClose P ov (closeChunk st2))
      else
        asmGo P ov rest st2

/-- The `InvalidInput` error condition of spec §4.2/§7. -/
inductive ImportError where
  | invalidInput
deriving DecidableEq, Inhabited

/-- Boolean check: verse numbers strictly increasing (spec §4.2 failure
modes: "verses not sorted in increasing verse-number order"). -/
def sortedByVerse : List Verse → Bool
  | [] => true
  | [_] => true
  | a :: b :: t => decide (a.verse < b.verse) && sortedByVerse (b :: t)

/-- Boolean check: all verses belong to the same chapter of the same book
(spec §4.2 failure modes: "verses spanning more than one chapter"). -/
def oneChapter : List Verse → Bool
  | [] => true
  | h :: t => t.all fun v => decide (v.book = h.book ∧ v.chapter = h.chapter)

/-- Modelled from the spec: `assemble` (§4.2 contract and failure modes).
Validates the preconditions, then runs the greedy loop with an empty
accumulator and no seed (no overlap at chapter start). -/
def assemble (verses : List Verse) (P : GenreProfile) (ov : Bool) :
    Except ImportError (List Chunk) :=
  if verses = [] then .error .invalidInput
  else if ¬ sortedByVerse verses then .error .invalidInput
  else if ¬ oneChapter verses then .error .invalidInput
  else .ok (asmGo P ov verses { seed := [], prim := [] })

/-! ## Simp lemmas for the assembler's constructors -/

@[simp] lemma closeChunk_primary (st : AsmState) : (closeChunk st).primary = st.prim := rfl

@[simp] lemma closeChunk_overlap (st : AsmState) : (closeChunk st).overlap = st.seed := rfl

@[simp] lemma closeChunk_token_count (st : AsmState) :
    (closeChunk st).token_count = runTokens st := rfl

@[simp] lemma closeChunk_oversized (st : AsmState) : (closeChunk st).oversized = false := rfl

@[simp] lemma mkOversized_primary (v : Verse) : (mkOversized v).primary = [v] := rfl

@[simp] lemma mkOversized_overlap (v : Verse) : (mkOversized v).overlap = [] := rfl

@[simp] lemma mkOversized_token_count (v : Verse) :
    (mkOversized v).token_count = count_tokens v.text := rfl

@[simp] lemma mkOversized_oversized (v : Verse) : (mkOversized v).oversized = true := rfl

@[simp] lemma afterClose_prim (P : GenreProfile) (ov : Bool) (c : Chunk) :
    (afterClose P ov c).prim = [] := rfl

@[simp] lemma afterClose_seed_false (P : GenreProfile) (c : Chunk) :
    (afterClose P false c).seed = [] := rfl

/-! ## C1 machinery: primary coverage -/

/-- The primary verses of the emitted chunks are exactly the accumulated
primary verses followed by the verses still to be consumed. -/
lemma asmGo_flatten_primary (P : GenreProfile) (ov : Bool) :
    ∀ (vs : List Verse) (st : AsmState),
    ((asmGo P ov vs st).map (fun c => c.primary)).flatten = st.prim ++ vs := by
  intro vs
  induction vs with
  | nil =>
    intro st
    by_cases h : st.prim = [] <;> simp [asmGo, h]
  | cons v rest ih =>
    intro st
    simp only [asmGo]
    split_ifs with h1 h2 h3 h4 h5 <;> simp_all [List.append_assoc]

/-- Every chunk emitted by the loop is either a closed accumulator with a
nonempty primary list, or an oversized single-verse chunk whose verse
exceeds `max_tokens`. -/
lemma asmGo_mem_shape (P : GenreProfile) (ov : Bool) :
    ∀ (vs : List Verse) (st : AsmState), ∀ c ∈ asmGo P ov vs st,
      (∃ st' : AsmState, c = closeChunk st' ∧ st'.prim ≠ []) ∨
      (∃ v : Verse, c = mkOversized v ∧ P.max_tokens < count_tokens v.text) := by
  intro vs
  induction vs with
  | nil =>
    intro st c hc
    by_cases h : st.prim = [] <;> simp [asmGo, h] at hc
    exact Or.inl ⟨st, hc, h⟩
  | cons v rest ih =>
    intro st c hc
    simp only [asmGo] at hc
    split_ifs at hc with h1 h2 h3 h4 h5
    · rcases List.mem_cons.mp hc with rfl | hc
      · exact Or.inr ⟨v, rfl, h1.2⟩
      · exact ih _ _ hc
    · rcases List.mem_cons.mp hc with rfl | hc
      · exact Or.inl ⟨st, rfl, h2.1⟩
      · rcases List.mem_cons.mp hc with rfl | hc
        · exact Or.inr ⟨v, rfl, h3⟩
        · exact ih _ _ hc
    · rcases List.mem_cons.mp hc with rfl | hc
      · exact Or.inl ⟨st, rfl, h2.1⟩
      · rcases List.mem_cons.mp hc with rfl | hc
        · exact Or.inl ⟨_, rfl, by simp⟩
        · exact ih _ _ hc
    · rcases List.mem_cons.mp hc with rfl | hc
      · exact Or.inl ⟨st, rfl, h2.1⟩
      · exact ih _ _ hc
    · rcases List.mem_cons.mp hc with rfl | hc
      · exact Or.inl ⟨_, rfl, by simp⟩
      · exact ih _ _ hc
    · exact ih _ _ hc

/-- Every emitted chunk has at least one primary verse. -/
lemma asmGo_primary_ne_nil (P : GenreProfile) (ov : Bool)
    (vs : List Verse) (st : AsmState) : ∀ c ∈ asmGo P ov vs st, c.primary ≠ [] := by
  intro c hc
  rcases asmGo_mem_shape P ov vs st c hc with ⟨st', rfl, h⟩ | ⟨v, rfl, h⟩ <;> simp [h]

/-- Every emitted chunk's `verse_start`/`verse_end` are the numbers of its
first/last primary verse. -/
lemma asmGo_chunk_bounds (P : GenreProfile) (ov : Bool)
    (vs : List Verse) (st : AsmState) : ∀ c ∈ asmGo P ov vs st,
      c.verse_start = ((c.primary.head?).map Verse.verse).getD 0 ∧
      c.verse_end = ((c.primary.getLast?).map Verse.verse).getD 0 := by
  intro c hc
  rcases asmGo_mem_shape P ov vs st c hc with ⟨st', rfl, h⟩ | ⟨v, rfl, h⟩ <;> exact ⟨rfl, rfl⟩

/-- If a concatenation of blocks is a contiguous range, every block is
itself a contiguous range. -/
lemma flatten_blocks_range' :
    ∀ (ls : List (List Nat)) (s n : Nat), ls.flatten = List.range' s n →
      ∀ l ∈ ls, ∃ t, l = List.range' t l.length := by
  intro ls
  induction ls with
  | nil => simp
  | cons hd tl ih =>
    intro s n hflat l hl
    have hlen : hd.length + tl.flatten.length = n := by
      have h := congrArg List.length hflat
      simpa using h
    have hsplit : List.range' s n = List.range' s hd.length ++
        List.range' (s + hd.length) tl.flatten.length := by
      have h := List.range'_append s hd.length tl.flatten.length 1
      rw [one_mul] at h
      rw [h]
      congr 1
      omega
    rw [List.flatten_cons, hsplit] at hflat
    obtain ⟨h1, h2⟩ := List.append_inj hflat (by simp)
    rcases List.mem_cons.mp hl with rfl | hl
    · exact ⟨s, h1⟩
    · exact ih _ _ h2 l hl

/-- Head of a nonempty contiguous range. -/
lemma range'_head? (t k : Nat) (hk : k ≠ 0) : (List.range' t k).head? = some t := by
  cases k with
  | zero => exact absurd rfl hk
  | succ m => simp [List.range'_succ]

/-- Last element of a nonempty contiguous range. -/
lemma range'_getLast? (t k : Nat) (hk : k ≠ 0) :
    (List.range' t k).getLast? = some (t + k - 1) := by
  cases k with
  | zero => exact absurd rfl hk
  | succ m =>
    have h := @List.range'_concat 1 t m
    rw [one_mul] at h
    rw [show t + (m + 1) - 1 = t + m by omega, h, List.getLast?_concat]

/-- A chunk whose primary verse numbers form a contiguous range covers, as
`verse_start..verse_end`, exactly those numbers. -/
lemma chunk_range_eq (c : Chunk) (hne : c.primary ≠ [])
    (hs : c.verse_start = ((c.primary.head?).map Verse.verse).getD 0)
    (he : c.verse_end = ((c.primary.getLast?).map Verse.verse).getD 0)
    (hblock : ∃ t, c.primary.map Verse.verse = List.range' t (c.primary.map Verse.verse).length) :
    List.range' c.verse_start (c.verse_end + 1 - c.verse_start) = c.primary.map Verse.verse := by
  obtain ⟨t, ht⟩ := hblock
  have hlen : (c.primary.map Verse.verse).length = c.primary.length := by simp
  rw [hlen] at ht
  have hk : c.primary.length ≠ 0 := by
    intro h; exact hne (List.eq_nil_of_length_eq_zero h)
  have hhead : Option.map Verse.verse c.primary.head? = some t := by
    rw [← List.head?_map, ht]; exact range'_head? t _ hk
  have hlast : Option.map Verse.verse c.primary.getLast? = some (t + c.primary.length - 1) := by
    rw [← List.getLast?_map, ht]; exact range'_getLast? t _ hk
  have hs' : c.verse_start = t := by rw [hs, hhead]; rfl
  have he' : c.verse_end = t + c.primary.length - 1 := by rw [he, hlast]; rfl
  rw [hs', he', ht]
  congr 1
  omega

/-- Text made of `k` space-separated words (so `count_tokens` of it is `k`). -/
def wordText (k : Nat) : String := String.intercalate " " (List.replicate k "w")

/-- Example verse of chapter 1 of Genesis with number `n` and `k` words. -/
def exVerse (n k : Nat) : Verse :=
  { book := "Genesis", chapter := 1, verse := n, text := wordText k, testament := .old }

/-- A small, valid genre profile (`min ≤ target ≤ max`) used by concrete runs. -/
def smallProfile : GenreProfile := { target_tokens := 7, min_tokens := 2, max_tokens := 10 }

/-- C1: for every chapter processed by the Chunk Assembler, the union of the
primary verse ranges (`verse_start..verse_end`) of the chunks it emits equals
the full, contiguous set of input verse numbers of that chapter, with no gaps
and no verse covered as primary by two chunks, for every value of the
`overlap_enabled` flag: the concatenation of the chunks' primary verse lists
is exactly the input verse list, every chunk has primary verses, and whenever
the input verse numbers are contiguous, the concatenation of the
`verse_start..verse_end` ranges is exactly the input verse-number list. -/
theorem assemble_primary_coverage (P : GenreProfile) (ov : Bool)
    (vs : List Verse) (chunks : List Chunk)
    (h : assemble vs P ov = Except.ok chunks) :
    ((chunks.map fun c => c.primary).flatten = vs) ∧
    (∀ c ∈ chunks, c.primary ≠ []) ∧
    (∀ start : Nat, vs.map Verse.verse = List.range' start vs.length →
      (chunks.map fun c =>
        List.range' c.verse_start (c.verse_end + 1 - c.verse_start)).flatten
        = vs.map Verse.verse) := by
  have hg : asmGo P ov vs { seed := [], prim := [] } = chunks := by
    unfold assemble at h
    split_ifs at h
    all_goals
      first
        | exact Except.noConfusion h
        | exact (Except.ok.injEq _ _).mp h
  subst hg
  refine ⟨?_, asmGo_primary_ne_nil P ov vs _, ?_⟩
  · simpa using asmGo_flatten_primary P ov vs { seed := [], prim := [] }
  · intro start hrange
    set chunks := asmGo P ov vs { seed := [], prim := [] } with hchunks
    have hflat : (chunks.map fun c => c.primary).flatten = vs := by
      simpa [hchunks] using asmGo_flatten_primary P ov vs { seed := [], prim := [] }
    have hflat2 : (chunks.map fun c => c.primary.map Verse.verse).flatten
        = vs.map Verse.verse := by
      have h1 := List.map_flatten Verse.verse (chunks.map fun c => c.primary)
      rw [hflat] at h1
      rw [List.map_map] at h1
      exact h1.symm
    have hb := flatten_blocks_range' (chunks.map fun c => c.primary.map Verse.verse)
      start vs.length (by rw [hflat2, hrange])
    have hcong : ∀ c ∈ chunks,
        List.range' c.verse_start (c.verse_end + 1 - c.verse_start)
          = c.primary.map Verse.verse := by
      intro c hc
      have hbounds := asmGo_chunk_bounds P ov vs { seed := [], prim := [] } c (hchunks ▸ hc)
      exact chunk_range_eq c (asmGo_primary_ne_nil P ov vs _ c (hchunks ▸ hc))
        hbounds.1 hbounds.2
        (hb (c.primary.map Verse.verse) (List.mem_map_of_mem _ hc))
    rw [List.map_congr_left hcong, hflat2]

/-- Concrete run for the C1 witness: three verses (5, 5 and 9 words) with
overlap enabled under `smallProfile`. -/
def coverageRunChunks : List Chunk :=
  (assemble [exVerse 1 5, exVerse 2 5, exVerse 3 9] smallProfile true).toOption.getD []

/-- Witness for C1 at a concrete input. -/
theorem assemble_primary_coverage_witness :
    (coverageRunChunks.map fun c => c.primary).flatten
      = [exVerse 1 5, exVerse 2 5, exVerse 3 9] :=
  (assemble_primary_coverage smallProfile true
    [exVerse 1 5, exVerse 2 5, exVerse 3 9] coverageRunChunks (by rfl)).1

/-! ## C4: `assemble` preconditions -/

/-- The boolean sortedness check holds exactly when consecutive verse
numbers strictly increase. -/
lemma sortedByVerse_iff :
    ∀ vs : List Verse, sortedByVerse vs = true ↔
      List.Chain' (fun a b => a.verse < b.verse) vs := by
  intro vs
  induction vs with
  | nil => simp [sortedByVerse]
  | cons a t ih =>
    cases t with
    | nil => simp [sortedByVerse]
    | cons b t2 =>
      simp only [sortedByVerse, Bool.and_eq_true, decide_eq_true_eq, List.chain'_cons]
      rw [ih]

/-- The boolean one-chapter check holds exactly when all verses share one
book and one chapter. -/
lemma oneChapter_iff :
    ∀ vs : List Verse, oneChapter vs = true ↔
      ∀ v ∈ vs, ∀ w ∈ vs, v.book = w.book ∧ v.chapter = w.chapter := by
  intro vs
  cases vs with
  | nil => simp [oneChapter]
  | cons h t =>
    simp only [oneChapter, List.all_eq_true, decide_eq_true_eq]
    constructor
    · intro hall v hv w hw
      have hv' : v.book = h.book ∧ v.chapter = h.chapter := by
        rcases List.mem_cons.mp hv with rfl | hv'
        · exact ⟨rfl, rfl⟩
        · exact hall v hv'
      have hw' : w.book = h.book ∧ w.chapter = h.chapter := by
        rcases List.mem_cons.mp hw with rfl | hw'
        · exact ⟨rfl, rfl⟩
        · exact hall w hw'
      exact ⟨hv'.1.trans hw'.1.symm, hv'.2.trans hw'.2.symm⟩
    · intro hall v hv
      exact hall v (List.mem_cons_of_mem _ hv) h (List.mem_cons_self _ _)

/-- C4: `assemble` fails with `InvalidInput` if and only if the verse
sequence is empty, or the verse numbers are not strictly increasing, or the
verses span more than one chapter; on every input satisfying the
preconditions it succeeds. -/
theorem assemble_invalidInput_iff (vs : List Verse) (P : GenreProfile) (ov : Bool) :
    (assemble vs P ov = Except.error ImportError.invalidInput ↔
      (vs = [] ∨ ¬ List.Chain' (fun a b => a.verse < b.verse) vs ∨
        ¬ ∀ v ∈ vs, ∀ w ∈ vs, v.book = w.book ∧ v.chapter = w.chapter)) ∧
    ((vs ≠ [] ∧ List.Chain' (fun a b => a.verse < b.verse) vs ∧
        (∀ v ∈ vs, ∀ w ∈ vs, v.book = w.book ∧ v.chapter = w.chapter)) →
      ∃ chunks, assemble vs P ov = Except.ok chunks) := by
  have hs := sortedByVerse_iff vs
  have hc := oneChapter_iff vs
  unfold assemble
  by_cases h1 : vs = []
  · simp only [if_pos h1]
    exact ⟨⟨fun _ => Or.inl h1, fun _ => trivial⟩, fun hpre => absurd h1 hpre.1⟩
  · simp only [if_neg h1]
    by_cases h2 : sortedByVerse vs = true
    · simp only [if_neg (not_not.mpr h2)]
      by_cases h3 : oneChapter vs = true
      · simp only [if_neg (not_not.mpr h3)]
        refine ⟨⟨fun h => Except.noConfusion h, ?_⟩, fun _ => ⟨_, rfl⟩⟩
        rintro (rfl | hnc | hna)
        · exact absurd rfl h1
        · exact absurd (hs.mp h2) hnc
        · exact absurd (hc.mp h3) hna
      · simp only [if_pos h3]
        exact ⟨⟨fun _ => Or.inr (Or.inr fun hall => h3 (hc.mpr hall)), fun _ => trivial⟩,
          fun hpre => absurd (hc.mpr hpre.2.2) h3⟩
    · simp only [if_pos h2]
      exact ⟨⟨fun _ => Or.inr (Or.inl fun hch => h2 (hs.mpr hch)), fun _ => trivial⟩,
        fun hpre => absurd (hs.mpr hpre.2.1) h2⟩

/-- Witness for C4 at concrete inputs: the empty sequence is rejected. -/
theorem assemble_invalidInput_iff_witness :
    assemble [] smallProfile false = Except.error ImportError.invalidInput :=
  (assemble_invalidInput_iff [] smallProfile false).1.mpr (Or.inl rfl)

/-! ## C7: Genre Classifier (spec §4.1) — modelled from the spec -/

/-- The seven genre categories of spec §4.1. -/
inductive GenreCategory where
  | poetry
  | wisdom
  | law
  | narrative
  | gospel
  | prophecy
  | epistle
deriving DecidableEq, Inhabited, Fintype

/-- Modelled from the spec: the static table mapping each of the 66 canonical
book names to a genre category (spec §4.1).  The genre classifier source is
not under `src/` and the spec fixes only the shape of the table (66 entries,
7 categories); the per-book assignment below is the standard canonical one,
with book names in the corpus's Roman-numeral style (cf. `I Corinthians` in
`src/unnamed/part_000`). -/
def bookGenreTable : List (String × GenreCategory) :=
  [("Genesis", .law), ("Exodus", .law), ("Leviticus", .law),
   ("Numbers", .law), ("Deuteronomy", .law),
   ("Joshua", .narrative), ("Judges", .narrative), ("Ruth", .narrative),
   ("I Samuel", .narrative), ("II Samuel", .narrative),
   ("I Kings", .narrative), ("II Kings", .narrative),
   ("I Chronicles", .narrative), ("II Chronicles", .narrative),
   ("Ezra", .narrative), ("Nehemiah", .narrative), ("Esther", .narrative),
   ("Job", .wisdom), ("Psalms", .poetry), ("Proverbs", .wisdom),
   ("Ecclesiastes", .wisdom), ("Song of Solomon", .poetry),
   ("Isaiah", .prophecy), ("Jeremiah", .prophecy), ("Lamentations", .poetry),
   ("Ezekiel", .prophecy), ("Daniel", .prophecy), ("Hosea", .prophecy),
   ("Joel", .prophecy), ("Amos", .prophecy), ("Obadiah", .prophecy),
   ("Jonah", .prophecy), ("Micah", .prophecy), ("Nahum", .prophecy),
   ("Habakkuk", .prophecy), ("Zephaniah", .prophecy), ("Haggai", .prophecy),
   ("Zechariah", .prophecy), ("Malachi", .prophecy),
   ("Matthew", .gospel), ("Mark", .gospel), ("Luke", .gospel), ("John", .gospel),
   ("Acts", .narrative),
   ("Romans", .epistle), ("I Corinthians", .epistle), ("II Corinthians", .epistle),
   ("Galatians", .epistle), ("Ephesians", .epistle), ("Philippians", .epistle),
   ("Colossians", .epistle), ("I Thessalonians", .epistle),
   ("II Thessalonians", .epistle), ("I Timothy", .epistle), ("II Timothy", .epistle),
   ("Titus", .epistle), ("Philemon", .epistle), ("Hebrews", .epistle),
   ("James", .epistle), ("I Peter", .epistle), ("II Peter", .epistle),
   ("I John", .epistle), ("II John", .epistle), ("III John", .epistle),
   ("Jude", .epistle), ("Revelation", .prophecy)]

/-- First-match lookup in an association table. -/
def lookupGenre : List (String × GenreCategory) → String → Option GenreCategory
  | [], _ => none
  | (k, g) :: t, b => if b = k then some g else lookupGenre t b

/-- Modelled from the spec: `classify(book_name)` (spec §4.1) — table lookup
with the safe default `narrative` for any name absent from the table. -/
def classify (book : String) : GenreCategory :=
  (lookupGenre bookGenreTable book).getD .narrative

/-- A successful lookup returns an entry of the table. -/
lemma lookupGenre_mem :
    ∀ (t : List (String × GenreCategory)) (b : String) (g : GenreCategory),
      lookupGenre t b = some g → (b, g) ∈ t := by
  intro t
  induction t with
  | nil => intro b g h; exact Option.noConfusion h
  | cons p t ih =>
    intro b g h
    obtain ⟨k, g'⟩ := p
    by_cases hb : b = k
    · simp only [lookupGenre, if_pos hb] at h
      obtain rfl : g' = g := Option.some.inj h
      subst hb
      exact List.mem_cons_self _ _
    · simp only [lookupGenre, if_neg hb] at h
      exact List.mem_cons_of_mem _ (ih b g h)

/-- If no entry of the table has key `b`, the lookup fails. -/
lemma lookupGenre_none :
    ∀ (t : List (String × GenreCategory)) (b : String),
      (∀ g, (b, g) ∉ t) → lookupGenre t b = none := by
  intro t
  induction t with
  | nil => intro b _; rfl
  | cons p t ih =>
    intro b h
    obtain ⟨k, g'⟩ := p
    by_cases hb : b = k
    · subst hb
      exact absurd (List.mem_cons_self _ _) (h g')
    · simp only [lookupGenre, if_neg hb]
      exact ih b fun g hg => h g (List.mem_cons_of_mem _ hg)

/-- C7: `classify` is total — the table has exactly 66 entries, every book
name is either classified by a table entry or mapped to the default
`narrative`, and every name absent from the table is mapped to `narrative`
without failing. -/
theorem classify_total_with_fallback :
    bookGenreTable.length = 66 ∧
    (∀ book : String,
      (book, classify book) ∈ bookGenreTable ∨
        classify book = GenreCategory.narrative) ∧
    (∀ book : String, (∀ g, (book, g) ∉ bookGenreTable) →
      classify book = GenreCategory.narrative) := by
  refine ⟨rfl, ?_, ?_⟩
  · intro book
    cases hl : lookupGenre bookGenreTable book with
    | none => exact Or.inr (by simp [classify, hl])
    | some g =>
      refine Or.inl ?_
      have hm := lookupGenre_mem _ _ _ hl
      simpa [classify, hl] using hm
  · intro book h
    simp [classify, lookupGenre_none _ _ h]

/-- Witness for C7 at a concrete input: a name absent from the table is
classified as `narrative`. -/
theorem classify_total_with_fallback_witness :
    classify "Atlantis" = GenreCategory.narrative :=
  classify_total_with_fallback.2.2 "Atlantis" (by decide)

/-! ## `parseVerseRef` (src/ui/src/lib/api/geography.ts, lines 320–338)

The TypeScript function matches the anchored regular expression
`^(.+?)\s+(\d+):(\d+)(?:-(\d+))?\s*\(` against the document title and, on
success, returns `{ book: g1.trim(), chapter: parseInt(g2),
verse: parseInt(g3), ref: book + " " + chapter + ":" + verse }`.
The embedding below implements exactly that match: the lazy group `(.+?)`
is tried shortest-first (`findSplit`), each of its characters matched by `.`
(any character except a line terminator); after the split point the sequence
`\s+ (\d+) : (\d+) (-(\d+))? \s* (` must match a prefix of the remainder —
each of those pieces is deterministic (maximal munch) because the character
classes of neighbouring pieces are disjoint. -/

/-- JavaScript regex `\d`. -/
def isDigitChar (c : Char) : Bool := decide (48 ≤ c.toNat ∧ c.toNat ≤ 57)

/-- JavaScript regex `\s` (ECMAScript WhiteSpace ∪ LineTerminator). -/
def isJsSpace (c : Char) : Bool :=
  decide (c.toNat = 32 ∨ c.toNat = 9 ∨ c.toNat = 10 ∨ c.toNat = 11 ∨
    c.toNat = 12 ∨ c.toNat = 13 ∨ c.toNat = 160 ∨ c.toNat = 0x1680 ∨
    (0x2000 ≤ c.toNat ∧ c.toNat ≤ 0x200A) ∨ c.toNat = 0x2028 ∨
    c.toNat = 0x2029 ∨ c.toNat = 0x202F ∨ c.toNat = 0x205F ∨
    c.toNat = 0x3000 ∨ c.toNat = 0xFEFF)

/-- JavaScript regex `.` without the `s` flag: anything but a line
terminator. -/
def isDotChar (c : Char) : Bool :=
  decide (¬ (c.toNat = 10 ∨ c.toNat = 13 ∨ c.toNat = 0x2028 ∨ c.toNat = 0x2029))

/-- Numeric value of a decimal digit group (JavaScript `parseInt` on the
matched `\d+` group). -/
def digitsVal (l : List Char) : Nat := l.foldl (fun a c => a * 10 + (c.toNat - 48)) 0

/-- `\s+`: at least one whitespace character, maximal munch (the following
regex piece `\d+` cannot match whitespace, so no backtracking arises). -/
def parseSpaces (l : List Char) : Option (List Char) :=
  if l.takeWhile isJsSpace = [] then none else some (l.dropWhile isJsSpace)

/-- `(\d+)`: at least one digit, maximal munch (the regex pieces after each
digit group — `:`, `-`, `\s*\(` — cannot start with a digit). -/
def parseDigits (l : List Char) : Option (Nat × List Char) :=
  if l.takeWhile isDigitChar = [] then none
  else some (digitsVal (l.takeWhile isDigitChar), l.dropWhile isDigitChar)

/-- A single literal character. -/
def parseChar (c : Char) : List Char → Option (List Char)
  | x :: r => if x = c then some r else none
  | [] => none

/-- `(?:-(\d+))?`: greedy optional group.  If a `-` follows but no digit
follows it, both the group and the `\s*\(` continuation fail at the `-`,
so the whole position fails. -/
def parseOptDash (l : List Char) : Option (List Char) :=
  match l with
  | '-' :: r => (parseDigits r).map Prod.snd
  | _ => some l

/-- `\s*\(`: optional whitespace then a literal `(` (whitespace cannot be
`(`, so maximal munch is exact). -/
def parseClose (l : List Char) : Option Unit :=
  match l.dropWhile isJsSpace with
  | '(' :: _ => some ()
  | _ => none

/-- Match `\s+(\d+):(\d+)(?:-(\d+))?\s*\(` against a prefix of `l`,
returning the numeric values of the chapter and verse groups. -/
def matchTail (l : List Char) : Option (Nat × Nat) :=
  match parseSpaces l with
  | none => none
  | some r1 =>
    match parseDigits r1 with
    | none => none
    | some (ch, r2) =>
      match parseChar ':' r2 with
      | none => none
      | some r3 =>
        match parseDigits r3 with
        | none => none
        | some (v, r4) =>
          match parseOptDash r4 with
          | none => none
          | some rr =>
            match parseClose rr with
            | some _ => some (ch, v)
            | none => none

/-- Shortest-first search for the lazy group `(.+?)`: `acc` holds the
group's characters in reverse.  Each candidate character must be matched by
`.`; as soon as the tail pattern matches the remainder, the split wins. -/
def findSplit (acc : List Char) : List Char → Option (List Char × Nat × Nat)
  | [] => none
  | c :: rest =>
    if isDotChar c then
      match matchTail rest with
      | some p => some ((c :: acc).reverse, p.1, p.2)
      | none => findSplit (c :: acc) rest
    else none

/-- JavaScript `String.prototype.trim`. -/
def trimJs (l : List Char) : List Char :=
  ((l.dropWhile isJsSpace).reverse.dropWhile isJsSpace).reverse

/-- Result of `parseVerseRef`: `{ book, chapter, verse, ref }`. -/
structure VerseInfo where
  book : String
  chapter : Nat
  verse : Nat
  ref : String
deriving DecidableEq, Inhabited

/-- `parseVerseRef` (geography.ts lines 320–338): parse a verse reference
from a document title of the form `"Book Chapter:Verse (Translation)"`. -/
def parseVerseRef (documentTitle : String) : Option VerseInfo :=
  match findSplit [] documentTitle.data with
  | none => none
  | some (g1, ch, v) =>
    let book := String.mk (trimJs g1)
    some { book := book, chapter := ch, verse := v,
           ref := book ++ " " ++ natRepr ch ++ ":" ++ natRepr v }

/-! ## `searchBible` result mapping (geography.ts lines 344–396) -/

/-- One entry of `PrismSearchResponse.results`
(src/unnamed/part_003, lines 58–70). -/
structure PrismResult where
  chunk_id : String
  document_id : String
  document_title : String
  content : String
  domain : String
  tokens : Nat
  similarity : ℚ
deriving DecidableEq, Inhabited

/-- `BibleSearchResult` (src/unnamed/part_003): the fields `searchBible`
fills for each result. -/
structure BibleSearchResult where
  verse_ref : String
  book : String
  chapter : Nat
  verse : Nat
  translation : String
  text : String
  similarity : ℚ
  chunk_id : String
deriving DecidableEq, Inhabited

/-- The body of `data.results.map(...)` in `searchBible` (geography.ts
lines 368–386): parse the title; on failure produce `null`. -/
def toBibleResult (translation : String) (r : PrismResult) : Option BibleSearchResult :=
  match parseVerseRef r.document_title with
  | none => none
  | some vi =>
    some { verse_ref := vi.ref
           book := vi.book
           chapter := vi.chapter
           verse := vi.verse
           translation := translation
           text := r.content
           similarity := r.similarity
           chunk_id := r.chunk_id }

/-- `searchBible`'s per-translation mapping: map each Prism result to a
`BibleSearchResult` or `null`, then filter the `null`s out
(geography.ts line 386 `.filter((r) => r !== null)`). -/
def mapTranslationResults (translation : String) (results : List PrismResult) :
    List BibleSearchResult :=
  (results.map (toBibleResult translation)).filterMap id

/-- C8: a Prism result contributes to `searchBible`'s output exactly when
`parseVerseRef` succeeds on its `document_title` (failures are dropped, not
errors), and every produced result carries the parsed book/chapter/verse and
`verse_ref` of its title. -/
theorem searchBible_parse_filter (translation : String) (results : List PrismResult) :
    (∀ b ∈ mapTranslationResults translation results,
      ∃ r ∈ results, ∃ vi, parseVerseRef r.document_title = some vi ∧
        b.verse_ref = vi.ref ∧ b.book = vi.book ∧ b.chapter = vi.chapter ∧
        b.verse = vi.verse ∧ b.text = r.content ∧ b.similarity = r.similarity ∧
        b.translation = translation) ∧
    (mapTranslationResults translation results).length
      = (results.filter fun r => (parseVerseRef r.document_title).isSome).length := by
  induction results with
  | nil => exact ⟨fun b hb => absurd hb (by simp [mapTranslationResults]), rfl⟩
  | cons r t ih =>
    cases hp : parseVerseRef r.document_title with
    | none =>
      have hmap : mapTranslationResults translation (r :: t)
          = mapTranslationResults translation t := by
        simp [mapTranslationResults, toBibleResult, hp]
      constructor
      · intro b hb
        rw [hmap] at hb
        obtain ⟨r', hr', hrest⟩ := ih.1 b hb
        exact ⟨r', List.mem_cons_of_mem _ hr', hrest⟩
      · rw [hmap, ih.2]
        simp [hp]
    | some vi =>
      have hmap : mapTranslationResults translation (r :: t)
          = { verse_ref := vi.ref, book := vi.book, chapter := vi.chapter,
              verse := vi.verse, translation := translation, text := r.content,
              similarity := r.similarity, chunk_id := r.chunk_id }
            :: mapTranslationResults translation t := by
        simp [mapTranslationResults, toBibleResult, hp]
      constructor
      · intro b hb
        rw [hmap] at hb
        rcases List.mem_cons.mp hb with rfl | hb'
        · exact ⟨r, List.mem_cons_self _ _,
            vi, hp, rfl, rfl, rfl, rfl, rfl, rfl, rfl⟩
        · obtain ⟨r', hr', hrest⟩ := ih.1 b hb'
          exact ⟨r', List.mem_cons_of_mem _ hr', hrest⟩
      · rw [hmap]
        simp only [List.length_cons, ih.2]
        simp [hp]

/-! ## `searchBible` aggregation (geography.ts lines 389–395) -/

/-- The comparator order of `allResults.sort((a, b) => b.similarity -
a.similarity)`: descending similarity. -/
def simDesc (a b : BibleSearchResult) : Prop := b.similarity ≤ a.similarity

instance : DecidableRel simDesc := fun x y => inferInstanceAs (Decidable (y.similarity ≤ x.similarity))

instance : IsTotal BibleSearchResult simDesc :=
  ⟨fun a b => le_total b.similarity a.similarity⟩

instance : IsTrans BibleSearchResult simDesc :=
  ⟨fun _ _ _ hab hbc => le_trans hbc hab⟩

/-- The aggregation of `searchBible` (geography.ts lines 389–395): flatten
the per-translation result lists, sort by descending similarity, and return
the top K overall. -/
def searchBibleAggregate (perTranslation : List (List BibleSearchResult))
    (topK : Nat) : List BibleSearchResult :=
  (perTranslation.flatten.insertionSort simDesc).take topK

/-- C9: `searchBible` returns at most `topK` results, sorted in
non-increasing order of similarity, all drawn from the per-translation
result lists. -/
theorem searchBible_topK_sorted (perTranslation : List (List BibleSearchResult))
    (topK : Nat) :
    (searchBibleAggregate perTranslation topK).length ≤ topK ∧
    List.Sorted simDesc (searchBibleAggregate perTranslation topK) ∧
    ∀ b ∈ searchBibleAggregate perTranslation topK, b ∈ perTranslation.flatten := by
  refine ⟨?_, ?_, ?_⟩
  · exact List.length_take_le topK _
  · exact List.Pairwise.sublist (List.take_sublist _ _)
      (List.sorted_insertionSort simDesc _)
  · intro b hb
    have hb' : b ∈ perTranslation.flatten.insertionSort simDesc :=
      (List.take_sublist _ _).mem hb
    exact (List.perm_insertionSort simDesc _).mem_iff.mp hb'

/-! ## Search-filter store (src/ui/src/lib/api/geography.ts lines 457–531) -/

/-- `Translation` (src/unnamed/part_003 line 3). -/
inductive Translation where
  | kjv
  | asv
  | bbe
  | ylt
  | webster
deriving DecidableEq, Inhabited

/-- `SearchFilters` (src/unnamed/part_003 lines 44–47). -/
structure SearchFilters where
  translations : List Translation
  top_k : Nat
deriving DecidableEq, Inhabited

/-- The initial `searchFilters` store value (geography.ts lines 466–469). -/
def initialSearchFilters : SearchFilters :=
  { translations := [.kjv, .asv, .bbe, .ylt, .webster], top_k := 20 }

/-- `toggleTranslation` (geography.ts lines 504–521): remove the translation
if present — but only when more than one is selected — otherwise add it. -/
def toggleTranslation (t : Translation) (f : SearchFilters) : SearchFilters :=
  if t ∈ f.translations then
    if 1 < f.translations.length then
      { f with translations := f.translations.erase t }
    else f
  else { f with translations := f.translations ++ [t] }

/-- `setTranslations` (geography.ts lines 526–531): substitute `['kjv']`
for an empty list. -/
def setTranslations (ts : List Translation) (f : SearchFilters) : SearchFilters :=
  { f with translations := if 0 < ts.length then ts else [.kjv] }

/-- The store operations that modify the `translations` filter. -/
inductive StoreOp where
  | toggle (t : Translation)
  | setAll (ts : List Translation)
deriving DecidableEq, Inhabited

/-- Apply one store operation to the filters. -/
def applyOp (f : SearchFilters) : StoreOp → SearchFilters
  | .toggle t => toggleTranslation t f
  | .setAll ts => setTranslations ts f

/-- Apply a sequence of store operations. -/
def applyOps (ops : List StoreOp) (f : SearchFilters) : SearchFilters :=
  ops.foldl applyOp f

/-- `toggleTranslation` keeps the list nonempty. -/
lemma toggleTranslation_ne_nil (t : Translation) (f : SearchFilters)
    (h : f.translations ≠ []) : (toggleTranslation t f).translations ≠ [] := by
  unfold toggleTranslation
  by_cases hmem : t ∈ f.translations
  · by_cases hlen : 1 < f.translations.length
    · simp only [if_pos hmem, if_pos hlen]
      have : (f.translations.erase t).length = f.translations.length - 1 :=
        List.length_erase_of_mem hmem
      intro hnil
      rw [hnil] at this
      simp at this
      omega
    · simp only [if_pos hmem, if_neg hlen]
      exact h
  · simp only [if_neg hmem]
    simp

/-- `setTranslations` keeps the list nonempty. -/
lemma setTranslations_ne_nil (ts : List Translation) (f : SearchFilters) :
    (setTranslations ts f).translations ≠ [] := by
  unfold setTranslations
  by_cases hl : 0 < ts.length
  · simp only [if_pos hl]
    exact fun hnil => by simp [hnil] at hl
  · simp only [if_neg hl]
    simp

/-- C10: the `translations` filter is never empty after any sequence of
store operations: `toggleTranslation` removes only when more than one
translation is selected, and `setTranslations` substitutes `['kjv']` for an
empty list. -/
theorem searchFilters_never_empty :
    (∀ ops : List StoreOp, (applyOps ops initialSearchFilters).translations ≠ []) ∧
    (∀ (t : Translation) (f : SearchFilters), t ∈ f.translations →
      ¬ 1 < f.translations.length → toggleTranslation t f = f) ∧
    (∀ f : SearchFilters, (setTranslations [] f).translations = [Translation.kjv]) := by
  refine ⟨?_, ?_, fun f => rfl⟩
  · have hgen : ∀ (ops : List StoreOp) (f : SearchFilters),
        f.translations ≠ [] → (applyOps ops f).translations ≠ [] := by
      intro ops
      induction ops with
      | nil => exact fun f h => h
      | cons op rest ih =>
        intro f h
        cases op with
        | toggle t => exact ih _ (toggleTranslation_ne_nil t f h)
        | setAll ts => exact ih _ (setTranslations_ne_nil ts f)
    exact fun ops => hgen ops initialSearchFilters (by simp [initialSearchFilters])
  · intro t f hmem hlen
    unfold toggleTranslation
    simp only [if_pos hmem, if_neg hlen]

/-- Witness for C10 at a concrete input: toggling the sole selected
translation leaves it selected. -/
theorem searchFilters_never_empty_witness :
    toggleTranslation Translation.kjv { translations := [Translation.kjv], top_k := 20 }
      = { translations := [Translation.kjv], top_k := 20 } :=
  searchFilters_never_empty.2.1 Translation.kjv
    { translations := [Translation.kjv], top_k := 20 } (by decide) (by decide)

/-! ## C5/C6: the Prism document record and title

The uploader (`prism_client.py` / the document builder) is not under
`src/`.  Its output record, however, is declared three times in the
repository: `src/importer/README.md` ("Prism Document Format", lines
213–245), `src/unnamed/part_000` and `src/VERIFICATION_REPORT.md` ("Prism
Document Schema") — all with the same metadata layout.  The record below
follows that declared layout.  The title follows the spec §6 contract
`"<Book> <Chapter>:<verse_start>-<verse_end> (<translation-code>)"`. -/

/-- Rendering of the testament in document metadata: `"OT"` or `"NT"`. -/
def Testament.render : Testament → String
  | .old => "OT"
  | .new => "NT"

/-- The nested `structure` object of the declared metadata layout. -/
structure StructureMeta where
  path : String
  book_number : Nat
  total_verses : Nat
  token_count : Nat
deriving DecidableEq, Inhabited

/-- The nested `source` object of the declared metadata layout. -/
structure SourceMeta where
  type : String
  origin : String
  url : String
  format : String
deriving DecidableEq, Inhabited

/-- A JSON-like metadata value. -/
inductive MetaVal where
  | str (s : String)
  | num (n : Nat)
  | structObj (s : StructureMeta)
  | sourceObj (s : SourceMeta)
deriving DecidableEq, Inhabited

/-- Modelled from the spec (§6): the document title
`"<Book> <Chapter>:<verse_start>-<verse_end> (<translation-code>)"`.
(The in-repository examples also show a dash-less single-verse variant,
`"I Corinthians 13:13 (KJV)"`; the spec's contract fixes the dashed form.) -/
def mkTitle (book : String) (chapter vstart vend : Nat) (code : String) : String :=
  book ++ " " ++ natRepr chapter ++ ":" ++ natRepr vstart ++ "-" ++ natRepr vend
    ++ " (" ++ code ++ ")"

/-- The metadata object of the document record, exactly as declared in
`src/importer/README.md` lines 222–243 (and identically in
`src/unnamed/part_000` and `src/VERIFICATION_REPORT.md`): `token_count`
lives inside the nested `structure` object; there are no `genre`,
`cross_references` or `parallel_passage_id` fields. -/
def mkPrismMetadata (c : Chunk) (translation : String) (bookId : Nat) :
    List (String × MetaVal) :=
  [("book", .str c.book),
   ("book_id", .num bookId),
   ("chapter", .num c.chapter),
   ("verse_start", .num c.verse_start),
   ("verse_end", .num c.verse_end),
   ("testament", .str c.testament.render),
   ("translation", .str translation),
   ("language", .str "en"),
   ("structure", .structObj
     { path := translation ++ " > " ++ c.book ++ " > Chapter "
         ++ natRepr c.chapter ++ " > Verses " ++ natRepr c.verse_start
         ++ "-" ++ natRepr c.verse_end
       book_number := bookId
       total_verses := c.primary.length
       token_count := c.token_count })
   , ("source", .sourceObj
     { type := "corpus"
       origin := "scrollmapper/bible_databases"
       url := "https://github.com/scrollmapper/bible_databases"
       format := "csv" })]

/-- The document record handed to the Prism import endpoint
(`src/importer/README.md` lines 215–245). -/
structure PrismDocument where
  title : String
  content : String
  domain : String
  metadata : List (String × MetaVal)
deriving DecidableEq, Inhabited

/-- Build the document record for a chunk (README lines 215–245): title per
the §6 contract, content the rendered chunk text, domain
`bible/<translation-code>`. -/
def mkPrismDocument (c : Chunk) (translation : String) (bookId : Nat) :
    PrismDocument :=
  { title := mkTitle c.book c.chapter c.verse_start c.verse_end translation
    content := c.text
    domain := "bible/" ++ translation
    metadata := mkPrismMetadata c translation bookId }

/-- A chunk produced by a concrete assembler run (two verses of 5 and 3
words under `smallProfile`). -/
def exampleChunk : Chunk :=
  ((assemble [exVerse 1 5, exVerse 2 3] smallProfile false).toOption.getD []).headD default

/-- Counterexample for C5: the emitted document's metadata (layout declared
in `src/importer/README.md`) has no `genre`, `cross_references` or
`parallel_passage_id` field, and no top-level `token_count`: its keys are
exactly book, book_id, chapter, verse_start, verse_end, testament,
translation, language, structure, source. -/
theorem prism_metadata_counterexample :
    ("genre" ∉ (mkPrismMetadata exampleChunk "KJV" 1).map Prod.fst) ∧
    ("cross_references" ∉ (mkPrismMetadata exampleChunk "KJV" 1).map Prod.fst) ∧
    ("parallel_passage_id" ∉ (mkPrismMetadata exampleChunk "KJV" 1).map Prod.fst) ∧
    ("token_count" ∉ (mkPrismMetadata exampleChunk "KJV" 1).map Prod.fst) ∧
    ((mkPrismMetadata exampleChunk "KJV" 1).map Prod.fst
      = ["book", "book_id", "chapter", "verse_start", "verse_end", "testament",
         "translation", "language", "structure", "source"]) := by
  refine ⟨?_, ?_, ?_, ?_, rfl⟩ <;> decide

/-- C5 (amended): for every chunk, the emitted record's metadata carries
exactly the declared keys — book, book_id, chapter, verse_start, verse_end,
testament (rendered `"OT"`/`"NT"`), translation, language, and nested
structure/source objects with `token_count` inside `structure` — and none of
`genre`, `cross_references`, `parallel_passage_id`. -/
theorem prism_metadata_fields (c : Chunk) (translation : String) (bookId : Nat) :
    ((mkPrismDocument c translation bookId).metadata.map Prod.fst
      = ["book", "book_id", "chapter", "verse_start", "verse_end", "testament",
         "translation", "language", "structure", "source"]) ∧
    ((mkPrismDocument c translation bookId).metadata.lookup "testament"
      = some (MetaVal.str c.testament.render)) ∧
    (c.testament.render = "OT" ∨ c.testament.render = "NT") ∧
    (∃ st : StructureMeta,
      (mkPrismDocument c translation bookId).metadata.lookup "structure"
        = some (MetaVal.structObj st) ∧ st.token_count = c.token_count) ∧
    ("genre" ∉ (mkPrismDocument c translation bookId).metadata.map Prod.fst) ∧
    ("cross_references" ∉ (mkPrismDocument c translation bookId).metadata.map Prod.fst) ∧
    ("parallel_passage_id" ∉ (mkPrismDocument c translation bookId).metadata.map Prod.fst) := by
  have hkeys : (mkPrismDocument c translation bookId).metadata.map Prod.fst
      = ["book", "book_id", "chapter", "verse_start", "verse_end", "testament",
         "translation", "language", "structure", "source"] := rfl
  refine ⟨hkeys, rfl, ?_, ⟨_, rfl, rfl⟩, ?_, ?_, ?_⟩
  · cases c.testament
    · exact Or.inl rfl
    · exact Or.inr rfl
  all_goals rw [hkeys]; decide

/-! ## C2/C3 machinery: token-count invariants of the assembler -/

@[simp] lemma versesTokens_nil : versesTokens [] = 0 := rfl

@[simp] lemma versesTokens_cons (v : Verse) (t : List Verse) :
    versesTokens (v :: t) = count_tokens v.text + versesTokens t := by
  simp [versesTokens]

@[simp] lemma versesTokens_append (a b : List Verse) :
    versesTokens (a ++ b) = versesTokens a + versesTokens b := by
  simp [versesTokens]

lemma runTokens_eq (st : AsmState) :
    runTokens st = versesTokens st.seed + versesTokens st.prim := by
  simp [runTokens]

/-- The overlap tail is a selection from the closed chunk's verses. -/
lemma overlapTail_subset (t : Nat) :
    ∀ (l : List Verse), ∀ x ∈ overlapTail t l, x ∈ l := by
  intro l
  induction l with
  | nil => simp [overlapTail]
  | cons v rest ih =>
    intro x hx
    simp only [overlapTail] at hx
    split_ifs at hx with hcond
    · exact List.mem_cons_of_mem _ (ih x hx)
    · exact hx

/-- Every chunk's `token_count` is the token total of its overlap and
primary verses. -/
lemma asmGo_token_count (P : GenreProfile) (ov : Bool) (vs : List Verse)
    (st : AsmState) : ∀ c ∈ asmGo P ov vs st,
      c.token_count = versesTokens (c.overlap ++ c.primary) := by
  intro c hc
  rcases asmGo_mem_shape P ov vs st c hc with ⟨st', rfl, _⟩ | ⟨v, rfl, _⟩
  · rfl
  · simp

/-- The primary verses of every non-oversized chunk fit in `max_tokens`,
provided the accumulated primary verses do. -/
lemma asmGo_primary_tokens_le (P : GenreProfile) (ov : Bool) :
    ∀ (vs : List Verse) (st : AsmState),
      versesTokens st.prim ≤ P.max_tokens →
      ∀ c ∈ asmGo P ov vs st, c.oversized = false →
        versesTokens c.primary ≤ P.max_tokens := by
  intro vs
  induction vs with
  | nil =>
    intro st hst c hc _
    by_cases h : st.prim = [] <;> simp [asmGo, h] at hc
    subst hc
    simpa using hst
  | cons v rest ih =>
    intro st hst c hc hno
    simp only [asmGo] at hc
    split_ifs at hc with h1 h2 h3 h4 h5
    · rcases List.mem_cons.mp hc with rfl | hc
      · simp at hno
      · exact ih st hst c hc hno
    · rcases List.mem_cons.mp hc with rfl | hc
      · simpa using hst
      · rcases List.mem_cons.mp hc with rfl | hc
        · simp at hno
        · exact ih _ (by simp) c hc hno
    · rcases List.mem_cons.mp hc with rfl | hc
      · simpa using hst
      · rcases List.mem_cons.mp hc with rfl | hc
        · simpa using Nat.le_of_not_lt h3
        · exact ih _ (by simp) c hc hno
    · rcases List.mem_cons.mp hc with rfl | hc
      · simpa using hst
      · exact ih _ (by simpa using Nat.le_of_not_lt h3) c hc hno
    · rcases List.mem_cons.mp hc with rfl | hc
      · have hv : count_tokens v.text ≤ P.max_tokens := by
          by_cases hp : st.prim = []
          · exact Nat.le_of_not_lt fun hlt => h1 ⟨hp, hlt⟩
          · have := fun hlt => h2 ⟨hp, hlt⟩
            have hle : runTokens st + count_tokens v.text ≤ P.max_tokens :=
              Nat.le_of_not_lt this
            calc count_tokens v.text ≤ runTokens st + count_tokens v.text :=
                  Nat.le_add_left _ _
              _ ≤ P.max_tokens := hle
        have hb : versesTokens (st.prim ++ [v]) ≤ P.max_tokens := by
          by_cases hp : st.prim = []
          · simpa [hp] using hv
          · have hle : runTokens st + count_tokens v.text ≤ P.max_tokens :=
              Nat.le_of_not_lt fun hlt => h2 ⟨hp, hlt⟩
            rw [runTokens_eq] at hle
            simp only [versesTokens_append, versesTokens_cons, versesTokens_nil]
            omega
        simpa using hb
      · exact ih _ (by simp) c hc hno
    · rcases hc with hc
      have hb : versesTokens (st.prim ++ [v]) ≤ P.max_tokens := by
        by_cases hp : st.prim = []
        · have hv : count_tokens v.text ≤ P.max_tokens :=
            Nat.le_of_not_lt fun hlt => h1 ⟨hp, hlt⟩
          simpa [hp] using hv
        · have hle : runTokens st + count_tokens v.text ≤ P.max_tokens :=
            Nat.le_of_not_lt fun hlt => h2 ⟨hp, hlt⟩
          rw [runTokens_eq] at hle
          simp only [versesTokens_append, versesTokens_cons, versesTokens_nil]
          omega
      exact ih _ (by simpa using hb) c hc hno

/-- The seed of a reseeded accumulator is drawn from the closed chunk's
verses. -/
lemma afterClose_seed_subset (P : GenreProfile) (ov : Bool) (c : Chunk) :
    ∀ x ∈ (afterClose P ov c).seed, x ∈ c.overlap ++ c.primary := by
  intro x hx
  simp only [afterClose] at hx
  split_ifs at hx with h
  · exact overlapTail_subset _ _ x hx
  · simp at hx

/-- All accumulated verses individually fit in `max_tokens`. -/
def stBound (P : GenreProfile) (st : AsmState) : Prop :=
  ∀ x ∈ st.seed ++ st.prim, count_tokens x.text ≤ P.max_tokens

lemma stBound_afterClose (P : GenreProfile) (ov : Bool) (st : AsmState)
    (h : stBound P st) : stBound P (afterClose P ov (closeChunk st)) := by
  intro x hx
  simp only [afterClose_prim, List.append_nil] at hx
  exact h x (afterClose_seed_subset P ov (closeChunk st) x hx)

lemma stBound_push (P : GenreProfile) (st : AsmState) (v : Verse)
    (h : stBound P st) (hv : count_tokens v.text ≤ P.max_tokens) :
    stBound P { st with prim := st.prim ++ [v] } := by
  intro x hx
  simp only at hx
  rcases List.mem_append.mp hx with hx | hx
  · exact h x (List.mem_append.mpr (Or.inl hx))
  · rcases List.mem_append.mp hx with hx | hx
    · exact h x (List.mem_append.mpr (Or.inr hx))
    · rw [List.mem_singleton.mp hx]
      exact hv

/-- With overlap disabled no chunk carries overlap verses. -/
lemma asmGo_overlap_nil (P : GenreProfile) :
    ∀ (vs : List Verse) (st : AsmState), st.seed = [] →
      ∀ c ∈ asmGo P false vs st, c.overlap = [] := by
  intro vs
  induction vs with
  | nil =>
    intro st hseed c hc
    by_cases h : st.prim = [] <;> simp [asmGo, h] at hc
    subst hc
    simpa using hseed
  | cons v rest ih =>
    intro st hseed c hc
    simp only [asmGo] at hc
    split_ifs at hc with h1 h2 h3 h4 h5
    · rcases List.mem_cons.mp hc with rfl | hc
      · simp
      · exact ih st hseed c hc
    · rcases List.mem_cons.mp hc with rfl | hc
      · simpa using hseed
      · rcases List.mem_cons.mp hc with rfl | hc
        · simp
        · exact ih _ rfl c hc
    · rcases List.mem_cons.mp hc with rfl | hc
      · simpa using hseed
      · rcases List.mem_cons.mp hc with rfl | hc
        · simp [afterClose]
        · exact ih _ rfl c hc
    · rcases List.mem_cons.mp hc with rfl | hc
      · simpa using hseed
      · exact ih _ rfl c hc
    · rcases List.mem_cons.mp hc with rfl | hc
      · simpa using hseed
      · exact ih _ rfl c hc
    · exact ih { st with prim := st.prim ++ [v] } hseed c hc

/-- Every verse (overlap or primary) of a non-oversized chunk individually
fits in `max_tokens`, provided the accumulated verses do. -/
lemma asmGo_verses_le (P : GenreProfile) (ov : Bool) :
    ∀ (vs : List Verse) (st : AsmState), stBound P st →
      ∀ c ∈ asmGo P ov vs st, c.oversized = false →
        ∀ v ∈ c.overlap ++ c.primary, count_tokens v.text ≤ P.max_tokens := by
  intro vs
  induction vs with
  | nil =>
    intro st hst c hc _
    by_cases h : st.prim = [] <;> simp [asmGo, h] at hc
    subst hc
    exact hst
  | cons v rest ih =>
    intro st hst c hc hno
    simp only [asmGo] at hc
    split_ifs at hc with h1 h2 h3 h4 h5
    · rcases List.mem_cons.mp hc with rfl | hc
      · simp at hno
      · exact ih st hst c hc hno
    · rcases List.mem_cons.mp hc with rfl | hc
      · exact hst
      · rcases List.mem_cons.mp hc with rfl | hc
        · simp at hno
        · exact ih _ (stBound_afterClose P ov st hst) c hc hno
    · have hvle : count_tokens v.text ≤ P.max_tokens := Nat.le_of_not_lt h3
      have hst2 : stBound P { seed := (afterClose P ov (closeChunk st)).seed, prim := [v] } :=
        stBound_push P (afterClose P ov (closeChunk st)) v
          (stBound_afterClose P ov st hst) hvle
      rcases List.mem_cons.mp hc with rfl | hc
      · exact hst
      · rcases List.mem_cons.mp hc with rfl | hc
        · exact hst2
        · exact ih _ (stBound_afterClose P ov _ hst2) c hc hno
    · have hvle : count_tokens v.text ≤ P.max_tokens := Nat.le_of_not_lt h3
      have hst2 : stBound P { seed := (afterClose P ov (closeChunk st)).seed, prim := [v] } :=
        stBound_push P (afterClose P ov (closeChunk st)) v
          (stBound_afterClose P ov st hst) hvle
      rcases List.mem_cons.mp hc with rfl | hc
      · exact hst
      · exact ih _ hst2 c hc hno
    · have hvle : count_tokens v.text ≤ P.max_tokens := by
        by_cases hp : st.prim = []
        · exact Nat.le_of_not_lt fun hlt => h1 ⟨hp, hlt⟩
        · have hle : runTokens st + count_tokens v.text ≤ P.max_tokens :=
            Nat.le_of_not_lt fun hlt => h2 ⟨hp, hlt⟩
          calc count_tokens v.text ≤ runTokens st + count_tokens v.text :=
                Nat.le_add_left _ _
            _ ≤ P.max_tokens := hle
      have hst2 : stBound P { st with prim := st.prim ++ [v] } :=
        stBound_push P st v hst hvle
      rcases List.mem_cons.mp hc with rfl | hc
      · exact hst2
      · exact ih _ (stBound_afterClose P ov _ hst2) c hc hno
    · have hvle : count_tokens v.text ≤ P.max_tokens := by
        by_cases hp : st.prim = []
        · exact Nat.le_of_not_lt fun hlt => h1 ⟨hp, hlt⟩
        · have hle : runTokens st + count_tokens v.text ≤ P.max_tokens :=
            Nat.le_of_not_lt fun hlt => h2 ⟨hp, hlt⟩
          calc count_tokens v.text ≤ runTokens st + count_tokens v.text :=
                Nat.le_add_left _ _
            _ ≤ P.max_tokens := hle
      exact ih _ (stBound_push P st v hst hvle) c hc hno

/-- The loop emits at least one chunk when primary verses are pending. -/
lemma asmGo_ne_nil (P : GenreProfile) (ov : Bool) :
    ∀ (vs : List Verse) (st : AsmState), st.prim ≠ [] → asmGo P ov vs st ≠ [] := by
  intro vs
  induction vs with
  | nil =>
    intro st hp
    simp [asmGo, hp]
  | cons v rest ih =>
    intro st hp
    simp only [asmGo]
    split_ifs with h1 h2 h3 h4 h5
    · exact List.cons_ne_nil _ _
    · exact List.cons_ne_nil _ _
    · exact List.cons_ne_nil _ _
    · exact List.cons_ne_nil _ _
    · exact List.cons_ne_nil _ _
    · exact ih { st with prim := st.prim ++ [v] } (by simp)

/-- The first chunk the loop emits starts with the pending primary verses. -/
lemma asmGo_head_primary (P : GenreProfile) (ov : Bool) :
    ∀ (vs : List Verse) (st : AsmState), st.prim ≠ [] →
      ∀ c, (asmGo P ov vs st).head? = some c → c.primary.head? = st.prim.head? := by
  intro vs
  induction vs with
  | nil =>
    intro st hp c hc
    simp [asmGo, hp] at hc
    subst hc
    rfl
  | cons v rest ih =>
    intro st hp c hc
    simp only [asmGo] at hc
    split_ifs at hc with h1 h2 h3 h4 h5
    · exact absurd h1.1 hp
    · simp only [List.head?_cons, Option.some.injEq] at hc
      subst hc
      rfl
    · simp only [List.head?_cons, Option.some.injEq] at hc
      subst hc
      rfl
    · simp only [List.head?_cons, Option.some.injEq] at hc
      subst hc
      rfl
    · simp only [List.head?_cons, Option.some.injEq] at hc
      subst hc
      simp only [closeChunk_primary]
      exact List.head?_append_of_ne_nil _ hp
    · have hc' := ih { st with prim := st.prim ++ [v] } (by simp) c hc
      rw [hc']
      exact List.head?_append_of_ne_nil _ hp

/-- Relation between consecutive emitted chunks: either the earlier chunk
reaches `min_tokens`, or it was closed at the greedy ceiling — appending the
next chunk's first primary verse would have exceeded `max_tokens`. -/
def chainRel (P : GenreProfile) (c c' : Chunk) : Prop :=
  P.min_tokens ≤ c.token_count ∨
    ∃ v, c'.primary.head? = some v ∧
      P.max_tokens < c.token_count + count_tokens v.text

/-- Consecutive emitted chunks always satisfy `chainRel`. -/
lemma asmGo_chain (P : GenreProfile) (ov : Bool)
    (hmt : P.min_tokens ≤ P.target_tokens) (htm : P.target_tokens ≤ P.max_tokens) :
    ∀ (vs : List Verse) (st : AsmState),
      List.Chain' (chainRel P) (asmGo P ov vs st) := by
  intro vs
  induction vs with
  | nil =>
    intro st
    by_cases h : st.prim = [] <;> simp [asmGo, h]
  | cons v rest ih =>
    intro st
    simp only [asmGo]
    split_ifs with h1 h2 h3 h4 h5
    · refine List.chain'_cons'.mpr ⟨?_, ih st⟩
      intro y _
      refine Or.inl ?_
      simp only [mkOversized_token_count]
      exact le_trans (le_trans hmt htm) (le_of_lt h1.2)
    · refine List.chain'_cons'.mpr ⟨?_, List.chain'_cons'.mpr ⟨?_, ih _⟩⟩
      · intro y hy
        simp only [List.head?_cons, Option.mem_def, Option.some.injEq] at hy
        subst hy
        exact Or.inr ⟨v, rfl, h2.2⟩
      · intro y _
        refine Or.inl ?_
        simp only [mkOversized_token_count]
        exact le_trans (le_trans hmt htm) (le_of_lt h3)
    · refine List.chain'_cons'.mpr ⟨?_, List.chain'_cons'.mpr ⟨?_, ih _⟩⟩
      · intro y hy
        simp only [List.head?_cons, Option.mem_def, Option.some.injEq] at hy
        subst hy
        exact Or.inr ⟨v, rfl, h2.2⟩
      · intro y _
        exact Or.inl (le_trans hmt h4)
    · refine List.chain'_cons'.mpr ⟨?_, ih _⟩
      intro y hy
      rw [Option.mem_def] at hy
      have hhd := asmGo_head_primary P ov rest
        { seed := (afterClose P ov (closeChunk st)).seed, prim := [v] }
        (by simp) y hy
      exact Or.inr ⟨v, by rw [hhd]; rfl, h2.2⟩
    · refine List.chain'_cons'.mpr ⟨?_, ih _⟩
      intro y _
      exact Or.inl (le_trans hmt h5)
    · exact ih _

/-- A successful `assemble` call returns exactly the loop's output. -/
lemma assemble_ok_eq (P : GenreProfile) (ov : Bool) (vs : List Verse)
    (chunks : List Chunk) (h : assemble vs P ov = Except.ok chunks) :
    asmGo P ov vs { seed := [], prim := [] } = chunks := by
  unfold assemble at h
  split_ifs at h
  all_goals
    first
      | exact Except.noConfusion h
      | exact (Except.ok.injEq _ _).mp h

/-- C2 (amended): for every valid profile and every emitted chunk —
(i) the primary verses of every non-oversized chunk total at most
`max_tokens`, so with overlap disabled `token_count ≤ max_tokens` for every
non-oversized chunk (with overlap enabled, overlap verses are also counted
and can push `token_count` past the ceiling); and
(ii) every chunk except the last reaches `min_tokens` unless it was closed
at the greedy ceiling, i.e. appending the next chunk's first primary verse
would have exceeded `max_tokens` (the final chunk of the chapter may fall
below `min_tokens`, as may a ceiling-closed chunk). -/
theorem assemble_token_bounds (P : GenreProfile) (ov : Bool) (vs : List Verse)
    (chunks : List Chunk)
    (hmt : P.min_tokens ≤ P.target_tokens) (htm : P.target_tokens ≤ P.max_tokens)
    (h : assemble vs P ov = Except.ok chunks) :
    (∀ c ∈ chunks, c.oversized = false → versesTokens c.primary ≤ P.max_tokens) ∧
    (ov = false → ∀ c ∈ chunks, c.oversized = false →
      c.token_count ≤ P.max_tokens) ∧
    List.Chain' (chainRel P) chunks := by
  have hg := assemble_ok_eq P ov vs chunks h
  subst hg
  refine ⟨asmGo_primary_tokens_le P ov vs _ (by simp), ?_,
    asmGo_chain P ov hmt htm vs _⟩
  intro hov c hc hno
  subst hov
  have ho := asmGo_overlap_nil P vs { seed := [], prim := [] } rfl c hc
  have htc := asmGo_token_count P false vs _ c hc
  rw [htc, ho, List.nil_append]
  exact asmGo_primary_tokens_le P false vs _ (by simp) c hc hno

/-- Concrete run for the C2 witness and counterexample: a 1-word verse
followed by a 10-word verse under `smallProfile`, overlap disabled. -/
def boundsRunChunks : List Chunk :=
  (assemble [exVerse 1 1, exVerse 2 10] smallProfile false).toOption.getD []

/-- Concrete overlap run: 5-, 5- and 9-word verses under `smallProfile`
with overlap enabled. -/
def overlapRunChunks : List Chunk :=
  (assemble [exVerse 1 5, exVerse 2 5, exVerse 3 9] smallProfile true).toOption.getD []

/-- Witness for C2 at a concrete input. -/
theorem assemble_token_bounds_witness :
    versesTokens (boundsRunChunks.headD default).primary
      ≤ smallProfile.max_tokens :=
  (assemble_token_bounds smallProfile false [exVerse 1 1, exVerse 2 10]
    boundsRunChunks (by decide) (by decide) (by rfl)).1 _ (by decide) (by decide)

/-- Counterexample for C2: (i) with overlap disabled, the first of the two
emitted chunks (hence not the final chunk of its chapter) is not oversized
and still has `token_count = 1 < min_tokens = 2` — it was closed at the
greedy ceiling; (ii) with overlap enabled, a non-oversized chunk (the
chapter's second, holding an overlap verse and a primary verse) has
`token_count = 14 > max_tokens = 10`. -/
theorem chunk_bounds_counterexample :
    (boundsRunChunks.length = 2 ∧
     (boundsRunChunks.headD default).oversized = false ∧
     (boundsRunChunks.headD default).token_count < smallProfile.min_tokens) ∧
    ((overlapRunChunks.getD 1 default).oversized = false ∧
     smallProfile.max_tokens < (overlapRunChunks.getD 1 default).token_count ∧
     1 < ((overlapRunChunks.getD 1 default).overlap
       ++ (overlapRunChunks.getD 1 default).primary).length) := by
  decide

/-- C3 (amended): (i) a chunk flagged oversized consists of exactly one
primary verse whose token count exceeds `max_tokens` (no verse is ever
split), with no overlap verses and `token_count` equal to that verse's
tokens; (ii) every chunk holding more than one verse holds only verses that
individually fit in `max_tokens`; (iii) with overlap disabled, only
oversized single-verse chunks have `token_count` above `max_tokens` (with
overlap enabled, counted overlap verses can push a non-oversized chunk past
the ceiling). -/
theorem assemble_oversized_rule (P : GenreProfile) (ov : Bool) (vs : List Verse)
    (chunks : List Chunk) (h : assemble vs P ov = Except.ok chunks) :
    (∀ c ∈ chunks, c.oversized = true →
      ∃ v, c.primary = [v] ∧ c.overlap = [] ∧
        P.max_tokens < count_tokens v.text ∧
        c.token_count = count_tokens v.text) ∧
    (∀ c ∈ chunks, 1 < (c.overlap ++ c.primary).length →
      ∀ v ∈ c.overlap ++ c.primary, count_tokens v.text ≤ P.max_tokens) ∧
    (ov = false → ∀ c ∈ chunks, P.max_tokens < c.token_count →
      c.oversized = true) := by
  have hg := assemble_ok_eq P ov vs chunks h
  subst hg
  refine ⟨?_, ?_, ?_⟩
  · intro c hc hov
    rcases asmGo_mem_shape P ov vs _ c hc with ⟨st', rfl, _⟩ | ⟨v, rfl, hv⟩
    · simp at hov
    · exact ⟨v, rfl, rfl, hv, rfl⟩
  · intro c hc hlen x hx
    by_cases hov : c.oversized = true
    · rcases asmGo_mem_shape P ov vs _ c hc with ⟨st', rfl, _⟩ | ⟨v, rfl, _⟩
      · simp at hov
      · simp at hlen
    · exact asmGo_verses_le P ov vs _ (by intro y hy; simp at hy) c hc
        (by simpa using hov) x hx
  · intro hov c hc htc
    subst hov
    by_cases hflag : c.oversized = true
    · exact hflag
    · exfalso
      have ho := asmGo_overlap_nil P vs { seed := [], prim := [] } rfl c hc
      have htcc := asmGo_token_count P false vs _ c hc
      have hle := asmGo_primary_tokens_le P false vs _ (by simp) c hc
        (by simpa using hflag)
      rw [htcc, ho, List.nil_append] at htc
      exact absurd htc (not_lt.mpr hle)

/-- Concrete run with an oversized first verse (11 words > `max_tokens`)
for the C3 witness. -/
def oversizedRunChunks : List Chunk :=
  (assemble [exVerse 1 11, exVerse 2 2] smallProfile false).toOption.getD []

/-- Witness for C3 at a concrete input: the 11-word verse is emitted as an
oversized chunk. -/
theorem assemble_oversized_rule_witness :
    (oversizedRunChunks.headD default).oversized = true :=
  (assemble_oversized_rule smallProfile false [exVerse 1 11, exVerse 2 2]
    oversizedRunChunks (by rfl)).2.2 rfl _ (by decide) (by decide)

/-- Counterexample for C3: with overlap enabled, the second chunk of the
overlap run carries two verses (overlap `[exVerse 2 5]`, primary
`[exVerse 3 9]`), each individually within `max_tokens = 10`, yet its
`token_count` is `14 > max_tokens` while the chunk is not an oversized
single-verse chunk — so chunks other than oversized single-verse chunks can
exceed `max_tokens`. -/
theorem oversized_rule_counterexample :
    (overlapRunChunks.getD 1 default).oversized = false ∧
    (overlapRunChunks.getD 1 default).overlap = [exVerse 2 5] ∧
    (overlapRunChunks.getD 1 default).primary = [exVerse 3 9] ∧
    count_tokens (exVerse 2 5).text ≤ smallProfile.max_tokens ∧
    count_tokens (exVerse 3 9).text ≤ smallProfile.max_tokens ∧
    smallProfile.max_tokens < (overlapRunChunks.getD 1 default).token_count := by
  decide

/-! ## C6 machinery: the title/parse round trip -/

/-- `Char.ofNat` of a valid scalar value preserves the numeric value. -/
lemma toNat_charOfNat (n : Nat) (h : n.isValidChar) : (Char.ofNat n).toNat = n := by
  unfold Char.ofNat
  simp only [h, dite_true, dif_pos]
  unfold Char.ofNatAux Char.toNat
  simp only [UInt32.toNat]
  exact BitVec.toNat_ofNatLt n _

/-- The digit-rendering loop produces a nonempty prefix of decimal digit
characters whose numeric value is the rendered number. -/
lemma natToDigitsAux_spec :
    ∀ (fuel n : Nat) (acc : List Char), n < fuel →
      ∃ ds, natToDigitsAux fuel n acc = ds ++ acc ∧ ds ≠ [] ∧
        (∀ c ∈ ds, 48 ≤ c.toNat ∧ c.toNat ≤ 57) ∧ digitsVal ds = n := by
  intro fuel
  induction fuel with
  | zero => intro n acc h; omega
  | succ fuel ih =>
    intro n acc h
    by_cases h10 : n < 10
    · refine ⟨[Char.ofNat (48 + n)], ?_, by simp, ?_, ?_⟩
      · simp [natToDigitsAux, h10]
      · intro c hc
        rw [List.mem_singleton.mp hc]
        rw [toNat_charOfNat _ (Or.inl (by omega))]
        omega
      · simp only [digitsVal, List.foldl_cons, List.foldl_nil]
        rw [toNat_charOfNat _ (Or.inl (by omega))]
        omega
    · have hrec : n / 10 < fuel := by
        have := Nat.div_lt_self (by omega : 0 < n) (by omega : 1 < 10)
        omega
      obtain ⟨ds, hds, hne, hdig, hval⟩ := ih (n / 10) (Char.ofNat (48 + n % 10) :: acc) hrec
      refine ⟨ds ++ [Char.ofNat (48 + n % 10)], ?_, by simp, ?_, ?_⟩
      · rw [show natToDigitsAux (fuel + 1) n acc
            = natToDigitsAux fuel (n / 10) (Char.ofNat (48 + n % 10) :: acc) by
          simp [natToDigitsAux, h10]]
        rw [hds]
        simp
      · intro c hc
        rcases List.mem_append.mp hc with hc | hc
        · exact hdig c hc
        · rw [List.mem_singleton.mp hc]
          rw [toNat_charOfNat _ (Or.inl (by omega))]
          omega
      · simp only [digitsVal, List.foldl_append, List.foldl_cons, List.foldl_nil]
        simp only [digitsVal] at hval
        rw [hval]
        rw [toNat_charOfNat _ (Or.inl (by omega))]
        omega

/-- The digits of `n`: nonempty, all decimal digit characters, and of
numeric value `n`. -/
lemma natToDigits_spec (n : Nat) :
    natToDigits n ≠ [] ∧ (∀ c ∈ natToDigits n, 48 ≤ c.toNat ∧ c.toNat ≤ 57) ∧
      digitsVal (natToDigits n) = n := by
  obtain ⟨ds, hds, hne, hdig, hval⟩ := natToDigitsAux_spec (n + 1) n [] (by omega)
  unfold natToDigits
  rw [hds, List.append_nil]
  exact ⟨hne, hdig, hval⟩

/-- Character of a Latin letter or a space (the alphabet of the 66 canonical
book names in this corpus). -/
def isBookChar (c : Char) : Bool :=
  decide ((65 ≤ c.toNat ∧ c.toNat ≤ 90) ∨ (97 ≤ c.toNat ∧ c.toNat ≤ 122) ∨
    c.toNat = 32)

/-- Character of a Latin letter. -/
def isAlphaChar (c : Char) : Bool :=
  decide ((65 ≤ c.toNat ∧ c.toNat ≤ 90) ∨ (97 ≤ c.toNat ∧ c.toNat ≤ 122))

lemma digit_not_jsSpace (c : Char) (h : 48 ≤ c.toNat ∧ c.toNat ≤ 57) :
    isJsSpace c = false := by
  simp only [isJsSpace, decide_eq_false_iff_not]
  omega

lemma digit_isDigitChar (c : Char) (h : 48 ≤ c.toNat ∧ c.toNat ≤ 57) :
    isDigitChar c = true := by
  simp only [isDigitChar, decide_eq_true_eq]
  omega

lemma alpha_not_jsSpace (c : Char) (h : isAlphaChar c = true) :
    isJsSpace c = false := by
  simp only [isAlphaChar, decide_eq_true_eq] at h
  simp only [isJsSpace, decide_eq_false_iff_not]
  omega

lemma alpha_not_digit (c : Char) (h : isAlphaChar c = true) :
    isDigitChar c = false := by
  simp only [isAlphaChar, decide_eq_true_eq] at h
  simp only [isDigitChar, decide_eq_false_iff_not]
  omega

lemma bookChar_isDot (c : Char) (h : isBookChar c = true) : isDotChar c = true := by
  simp only [isBookChar, decide_eq_true_eq] at h
  simp only [isDotChar, decide_eq_true_eq]
  omega

lemma bookChar_space_or_alpha (c : Char) (h : isBookChar c = true) :
    c.toNat = 32 ∨ isAlphaChar c = true := by
  simp only [isBookChar, decide_eq_true_eq] at h
  simp only [isAlphaChar, decide_eq_true_eq]
  omega

lemma space32_isJsSpace (c : Char) (h : c.toNat = 32) : isJsSpace c = true := by
  simp only [isJsSpace, decide_eq_true_eq]
  omega

/-- Splitting a list at the first failure of `p`. -/
lemma span_exact (p : Char → Bool) :
    ∀ (a : List Char) (x : Char) (t : List Char),
      (∀ c ∈ a, p c = true) → p x = false →
      (a ++ x :: t).takeWhile p = a ∧ (a ++ x :: t).dropWhile p = x :: t := by
  intro a
  induction a with
  | nil =>
    intro x t _ hx
    simp [List.takeWhile_cons, List.dropWhile_cons, hx]
  | cons c a ih =>
    intro x t ha hx
    have hc : p c = true := ha c (List.mem_cons_self _ _)
    have hrest := ih x t (fun d hd => ha d (List.mem_cons_of_mem _ hd)) hx
    simp only [List.cons_append, List.takeWhile_cons, List.dropWhile_cons, hc,
      if_true, if_pos]
    exact ⟨by rw [hrest.1], by rw [hrest.2]⟩

lemma parseSpaces_spec (a : List Char) (x : Char) (t : List Char)
    (ha : ∀ c ∈ a, isJsSpace c = true) (hx : isJsSpace x = false) (hne : a ≠ []) :
    parseSpaces (a ++ x :: t) = some (x :: t) := by
  obtain ⟨h1, h2⟩ := span_exact isJsSpace a x t ha hx
  simp [parseSpaces, h1, h2, hne]

lemma parseSpaces_none (x : Char) (t : List Char) (hx : isJsSpace x = false) :
    parseSpaces (x :: t) = none := by
  simp [parseSpaces, List.takeWhile_cons, hx]

lemma parseDigits_spec (a : List Char) (x : Char) (t : List Char)
    (ha : ∀ c ∈ a, isDigitChar c = true) (hx : isDigitChar x = false) (hne : a ≠ []) :
    parseDigits (a ++ x :: t) = some (digitsVal a, x :: t) := by
  obtain ⟨h1, h2⟩ := span_exact isDigitChar a x t ha hx
  simp [parseDigits, h1, h2, hne]

lemma parseDigits_none (x : Char) (t : List Char) (hx : isDigitChar x = false) :
    parseDigits (x :: t) = none := by
  simp [parseDigits, List.takeWhile_cons, hx]

/-- `matchTail` accepts the rendered tail of a spec §6 title, returning the
chapter and `verse_start` values. -/
lemma matchTail_render (ch vs ve : Nat) (rest : List Char) :
    matchTail (' ' :: (natToDigits ch ++ ':' ::
      (natToDigits vs ++ '-' :: (natToDigits ve ++ ' ' :: '(' :: rest))))
      = some (ch, vs) := by
  obtain ⟨hne1, hdig1, hval1⟩ := natToDigits_spec ch
  obtain ⟨hne2, hdig2, hval2⟩ := natToDigits_spec vs
  obtain ⟨hne3, hdig3, hval3⟩ := natToDigits_spec ve
  obtain ⟨d1, t1, hD1⟩ := List.exists_cons_of_ne_nil hne1
  have hs1 : parseSpaces (' ' :: (natToDigits ch ++ ':' ::
      (natToDigits vs ++ '-' :: (natToDigits ve ++ ' ' :: '(' :: rest))))
      = some (natToDigits ch ++ ':' ::
        (natToDigits vs ++ '-' :: (natToDigits ve ++ ' ' :: '(' :: rest))) := by
    rw [hD1]
    have := parseSpaces_spec [' '] d1
      (t1 ++ ':' :: (natToDigits vs ++ '-' :: (natToDigits ve ++ ' ' :: '(' :: rest)))
      (by intro c hc; rw [List.mem_singleton.mp hc]; exact space32_isJsSpace _ (by decide))
      (digit_not_jsSpace d1 (hdig1 d1 (by rw [hD1]; exact List.mem_cons_self _ _)))
      (by simp)
    simpa using this
  have hs2 : parseDigits (natToDigits ch ++ ':' ::
      (natToDigits vs ++ '-' :: (natToDigits ve ++ ' ' :: '(' :: rest)))
      = some (ch, ':' :: (natToDigits vs ++ '-' :: (natToDigits ve ++ ' ' :: '(' :: rest))) := by
    have := parseDigits_spec (natToDigits ch) ':'
      (natToDigits vs ++ '-' :: (natToDigits ve ++ ' ' :: '(' :: rest))
      (fun c hc => digit_isDigitChar c (hdig1 c hc)) (by decide) hne1
    rwa [hval1] at this
  have hs4 : parseDigits (natToDigits vs ++ '-' :: (natToDigits ve ++ ' ' :: '(' :: rest))
      = some (vs, '-' :: (natToDigits ve ++ ' ' :: '(' :: rest)) := by
    have := parseDigits_spec (natToDigits vs) '-' (natToDigits ve ++ ' ' :: '(' :: rest)
      (fun c hc => digit_isDigitChar c (hdig2 c hc)) (by decide) hne2
    rwa [hval2] at this
  have hs5 : parseDigits (natToDigits ve ++ ' ' :: '(' :: rest)
      = some (ve, ' ' :: '(' :: rest) := by
    have := parseDigits_spec (natToDigits ve) ' ' ('(' :: rest)
      (fun c hc => digit_isDigitChar c (hdig3 c hc)) (by decide) hne3
    rwa [hval3] at this
  have hs6 : parseClose (' ' :: '(' :: rest) = some () := by
    simp [parseClose, List.dropWhile_cons,
      show isJsSpace ' ' = true by decide, show isJsSpace '(' = false by decide]
  have hs3 : parseChar ':' (':' ::
      (natToDigits vs ++ '-' :: (natToDigits ve ++ ' ' :: '(' :: rest)))
      = some (natToDigits vs ++ '-' :: (natToDigits ve ++ ' ' :: '(' :: rest)) := by
    simp [parseChar]
  simp only [matchTail, hs1, hs2, hs3, hs4, parseOptDash, hs5,
    Option.map_some', hs6]

/-- A nonempty block of letters and spaces ending in a letter splits as a
(possibly empty) run of spaces followed by a letter. -/
lemma book_first_alpha :
    ∀ (l : List Char), l ≠ [] → (∀ c ∈ l, isBookChar c = true) →
      (∀ c, l.getLast? = some c → isAlphaChar c = true) →
      ∃ sp a t, l = sp ++ a :: t ∧ (∀ c ∈ sp, isJsSpace c = true) ∧
        isAlphaChar a = true := by
  intro l
  induction l with
  | nil => intro h; exact absurd rfl h
  | cons x l' ih =>
    intro _ hchars hlast
    rcases bookChar_space_or_alpha x (hchars x (List.mem_cons_self _ _)) with hsp | hal
    · cases l' with
      | nil =>
        exfalso
        have hax := hlast x rfl
        simp only [isAlphaChar, decide_eq_true_eq] at hax
        omega
      | cons y t' =>
        obtain ⟨sp, a, t, hdec, hsps, ha⟩ := ih (by simp)
          (fun c hc => hchars c (List.mem_cons_of_mem _ hc))
          (fun c hc => hlast c (by rw [List.getLast?_cons_cons]; exact hc))
        exact ⟨x :: sp, a, t, by rw [hdec]; rfl,
          fun c hc => by
            rcases List.mem_cons.mp hc with rfl | hc
            · exact space32_isJsSpace c hsp
            · exact hsps c hc, ha⟩
    · exact ⟨[], x, l', rfl, by simp, hal⟩

/-- No split strictly inside the book part of a title matches the tail
pattern: the first non-space character the `\s+\d` piece meets is a letter. -/
lemma matchTail_none_inner :
    ∀ (bs' rest : List Char), bs' ≠ [] → (∀ c ∈ bs', isBookChar c = true) →
      (∀ c, bs'.getLast? = some c → isAlphaChar c = true) →
      matchTail (bs' ++ rest) = none := by
  intro bs' rest hne hchars hlast
  obtain ⟨sp, a, t, hdec, hsp, ha⟩ := book_first_alpha bs' hne hchars hlast
  subst hdec
  rw [List.append_assoc, List.cons_append]
  cases sp with
  | nil =>
    rw [List.nil_append]
    simp only [matchTail, parseSpaces_none a _ (alpha_not_jsSpace a ha)]
  | cons s sp' =>
    rw [show (s :: sp') ++ a :: (t ++ rest) = (s :: sp') ++ a :: (t ++ rest) from rfl]
    have h1 := parseSpaces_spec (s :: sp') a (t ++ rest) hsp
      (alpha_not_jsSpace a ha) (by simp)
    simp only [matchTail, h1, parseDigits_none a _ (alpha_not_digit a ha)]

/-- One step of the lazy search: the split that matches wins. -/
lemma findSplit_cons_some (acc : List Char) (c : Char) (rest : List Char)
    (p : Nat × Nat) (hdot : isDotChar c = true) (h : matchTail rest = some p) :
    findSplit acc (c :: rest) = some ((c :: acc).reverse, p.1, p.2) := by
  simp only [findSplit, hdot, if_true, h]

/-- One step of the lazy search: on failure the group grows by one
character. -/
lemma findSplit_cons_none (acc : List Char) (c : Char) (rest : List Char)
    (hdot : isDotChar c = true) (h : matchTail rest = none) :
    findSplit acc (c :: rest) = findSplit (c :: acc) rest := by
  simp only [findSplit, hdot, if_true, h]

/-- The lazy group search returns the whole book part: every shorter split
fails, and at the book's end the tail pattern matches. -/
lemma findSplit_main :
    ∀ (bs acc tl : List Char) (ch vs : Nat),
      bs ≠ [] → (∀ c ∈ bs, isBookChar c = true) →
      (∀ c, bs.getLast? = some c → isAlphaChar c = true) →
      matchTail tl = some (ch, vs) →
      findSplit acc (bs ++ tl) = some (acc.reverse ++ bs, ch, vs) := by
  intro bs
  induction bs with
  | nil => intro acc tl ch vs h; exact absurd rfl h
  | cons c bs' ih =>
    intro acc tl ch vs _ hchars hlast hmt
    have hdot : isDotChar c = true := bookChar_isDot c (hchars c (List.mem_cons_self _ _))
    cases bs' with
    | nil =>
      simp only [List.cons_append, List.nil_append]
      rw [findSplit_cons_some acc c tl (ch, vs) hdot hmt]
      simp [List.reverse_cons]
    | cons b bs'' =>
      have hmtn : matchTail ((b :: bs'') ++ tl) = none :=
        matchTail_none_inner (b :: bs'') tl (by simp)
          (fun d hd => hchars d (List.mem_cons_of_mem _ hd))
          (fun d hd => hlast d (by rw [List.getLast?_cons_cons]; exact hd))
      have hrec := ih (c :: acc) tl ch vs (by simp)
        (fun d hd => hchars d (List.mem_cons_of_mem _ hd))
        (fun d hd => hlast d (by rw [List.getLast?_cons_cons]; exact hd)) hmt
      rw [List.cons_append,
        findSplit_cons_none acc c ((b :: bs'') ++ tl) hdot hmtn, hrec]
      simp [List.reverse_cons]

/-- A list with no leading or trailing JavaScript whitespace is unchanged
by `trim`. -/
lemma trimJs_eq (l : List Char)
    (hh : ∀ c, l.head? = some c → isJsSpace c = false)
    (hl : ∀ c, l.getLast? = some c → isJsSpace c = false) :
    trimJs l = l := by
  unfold trimJs
  have h1 : l.dropWhile isJsSpace = l := by
    cases l with
    | nil => rfl
    | cons x t =>
      rw [List.dropWhile_cons, if_neg]
      rw [hh x rfl]
      simp
  rw [h1]
  have h2 : l.reverse.dropWhile isJsSpace = l.reverse := by
    cases hr : l.reverse with
    | nil => rfl
    | cons x t =>
      rw [List.dropWhile_cons, if_neg]
      have hx : l.getLast? = some x := by
        rw [← List.head?_reverse, hr]
        rfl
      rw [hl x hx]
      simp
  rw [h2, List.reverse_reverse]

/-- C6: render/parse round trip.  For every book name made of letters and
spaces that starts and ends with a letter (every canonical book name of the
corpus), every chapter, verse range and translation code, the UI's
`parseVerseRef` applied to the §6-contract title
`"<Book> <Chapter>:<verse_start>-<verse_end> (<code>)"` succeeds and
returns exactly that book, that chapter, and `verse_start`, with
`ref = "<Book> <Chapter>:<verse_start>"`. -/
theorem title_parse_roundtrip (book code : String) (ch vstart vend : Nat)
    (hne : book.data ≠ [])
    (hchars : ∀ c ∈ book.data, isBookChar c = true)
    (hfirst : ∀ c, book.data.head? = some c → isAlphaChar c = true)
    (hlast : ∀ c, book.data.getLast? = some c → isAlphaChar c = true) :
    (∀ (c : Chunk) (bid : Nat), (mkPrismDocument c code bid).title
      = mkTitle c.book c.chapter c.verse_start c.verse_end code) ∧
    parseVerseRef (mkTitle book ch vstart vend code)
      = some { book := book, chapter := ch, verse := vstart,
               ref := book ++ " " ++ natRepr ch ++ ":" ++ natRepr vstart } := by
  refine ⟨fun c bid => rfl, ?_⟩
  have hdata : (mkTitle book ch vstart vend code).data
      = book.data ++ (' ' :: (natToDigits ch ++ ':' ::
          (natToDigits vstart ++ '-' :: (natToDigits vend ++ ' ' :: '(' ::
            (code.data ++ [')']))))) := by
    simp [mkTitle, String.data_append, natRepr]
  have hfs := findSplit_main book.data []
    (' ' :: (natToDigits ch ++ ':' :: (natToDigits vstart ++ '-' ::
      (natToDigits vend ++ ' ' :: '(' :: (code.data ++ [')'])))))
    ch vstart hne hchars hlast
    (matchTail_render ch vstart vend (code.data ++ [')']))
  have htr : trimJs book.data = book.data :=
    trimJs_eq book.data (fun c hc => alpha_not_jsSpace c (hfirst c hc))
      (fun c hc => alpha_not_jsSpace c (hlast c hc))
  have hmk : String.mk book.data = book := by cases book; rfl
  unfold parseVerseRef
  rw [hdata, hfs]
  simp only [List.reverse_nil, List.nil_append, htr, hmk]

/-- Witness for C6 at a concrete input: the title
`"I Corinthians 13:12-13 (KJV)"` parses back to its book, chapter and
`verse_start`. -/
theorem title_parse_roundtrip_witness :
    parseVerseRef (mkTitle "I Corinthians" 13 12 13 "KJV")
      = some { book := "I Corinthians", chapter := 13, verse := 12,
               ref := "I Corinthians 13:12" } := by
  have h := title_parse_roundtrip "I Corinthians" "KJV" 13 12 13
    (by decide) (by decide)
    (by
      intro c hc
      rw [show ("I Corinthians" : String).data.head? = some 'I' from rfl] at hc
      cases hc
      decide)
    (by
      intro c hc
      rw [show ("I Corinthians" : String).data.getLast? = some 's' from rfl] at hc
      cases hc
      decide)
  rw [h.2]
  rfl
